import Mathlib

/-!
# Verification of the savory-pie resource framework

A shallow embedding, in Lean 4, of the core of the savory-pie declarative
REST resource framework (`savory_pie/resources.py`, `savory_pie/fields.py`,
`savory_pie/views.py`), together with theorems settling a list of claims
about that code.

Modelling conventions, used throughout:

* Python dicts are modelled as association lists with overwrite-on-insert
  semantics (`dget` / `dset`).
* Python sets are modelled as `Finset String`, or as duplicate-free lists
  (`pysetAdd`) where the code iterates over a set (iteration order of a
  Python set is unspecified, and none of the claims depend on it).
* Request paths and URIs handled by the resolver are modelled as `List Char`
  (`Str`), so that Python's `str.split('/')` can be transcribed exactly
  (`splitSlash`).
* Mutation of objects in place is modelled by explicit state passing: an
  operation that mutates an object returns the updated object, and an
  operation that can raise returns `Except`.
* Where views.py and resources.py disagree on a method's calling convention
  (views.py invokes `get_child_resource` and `delete` without the `ctx`
  argument that every implementation in resources.py declares), both levels
  are modelled: a duck-typed level (`RTree`, matching the calling convention
  views.py itself uses and its tests exercise) and a composed level that
  tracks Python positional-argument binding (`pyCall`), in which the arity
  mismatch surfaces as a `TypeError`.
-/

/-- A Python string handled character by character (used for resolver paths). -/
abbrev Str := List Char

/-- Python dict lookup `d.get(k, None)`: first binding for the key, if any
(`dset` keeps at most one binding per key, so "first" is exact). -/
def dget {κ α : Type} [DecidableEq κ] (d : List (κ × α)) (k : κ) : Option α :=
  (d.find? (fun p => p.1 = k)).map (fun p => p.2)

/-- Python dict store `d[k] = v`: overwrite any existing binding for `k`. -/
def dset {κ α : Type} [DecidableEq κ] (d : List (κ × α)) (k : κ) (v : α) : List (κ × α) :=
  (k, v) :: d.filter (fun p => p.1 ≠ k)

/-! ## `resources.Related` — the related-fetch planner

`Related._select` and `Related._prefetch` are Python sets shared by
reference between a plan and every sub-plan derived from it; here the pair
of shared sets is an explicit piece of state (`RelatedSets`) threaded
through the operations, while the per-plan data (`_prefix`,
`_force_prefetch`) stays in `Related`. -/

/-- The pair of accumulator sets that all plans derived from one root
`Related` share by reference: `self._select` and `self._prefetch`. -/
structure RelatedSets where
  select_set : Finset String
  prefetch_set : Finset String
deriving DecidableEq

/-- The per-plan fields of `resources.Related`: `self._prefix` (`pfx` here,
since `prefix` is a Lean keyword) and `self._force_prefetch`. -/
structure Related where
  pfx : Option String
  force_prefetch : Bool
deriving DecidableEq

/-- `Related.translate`: qualify an attribute with the plan's prefix. -/
def Related.translate (r : Related) (attr : String) : String :=
  match r.pfx with
  | none => attr
  | some p => p ++ "__" ++ attr

/-- `Related.prefetch`: add the prefix-qualified attribute to the shared
prefetch set. -/
def Related.prefetch (r : Related) (s : RelatedSets) (attr : String) : RelatedSets :=
  { s with prefetch_set := insert (r.translate attr) s.prefetch_set }

/-- `Related.select`: redirected to `prefetch` when `_force_prefetch` is
set; otherwise adds the prefix-qualified attribute to the shared selection
set. -/
def Related.select (r : Related) (s : RelatedSets) (attr : String) : RelatedSets :=
  if r.force_prefetch then
    r.prefetch s attr
  else
    { s with select_set := insert (r.translate attr) s.select_set }

/-- `Related.sub_select`: sub-plan with extended prefix, force-prefetch
inherited.  (The Python object shares `_select`/`_prefetch` by reference;
here that sharing is the threading of `RelatedSets`.) -/
def Related.sub_select (r : Related) (attr : String) : Related :=
  { pfx := some (r.translate attr), force_prefetch := r.force_prefetch }

/-- `Related.sub_prefetch`: sub-plan with extended prefix and force-prefetch
switched on. -/
def Related.sub_prefetch (r : Related) (attr : String) : Related :=
  { pfx := some (r.translate attr), force_prefetch := true }

/-- `d` is `r` itself or a plan derived from `r` by a chain of
`sub_select` / `sub_prefetch` calls. -/
inductive Related.Descendant : Related → Related → Prop where
  | refl (r : Related) : Related.Descendant r r
  | sub_sel (r d : Related) (attr : String) :
      Related.Descendant r d → Related.Descendant r (d.sub_select attr)
  | sub_pre (r d : Related) (attr : String) :
      Related.Descendant r d → Related.Descendant r (d.sub_prefetch attr)

/-! ## `views.py` — path splitting and resource-tree resolution -/

/-- Python's `str.split('/')` transcribed over `List Char`: `splitSlash []`
is `[[]]` (Python `''.split('/') == ['']`), a separator starts a new
fragment. -/
def splitSlash : Str → List Str
  | [] => [[]]
  | c :: rest =>
    if c = '/' then
      [] :: splitSlash rest
    else
      match splitSlash rest with
      | [] => [[c]]
      | h :: t => (c :: h) :: t

/-- `views._split_resource_path`: split on `'/'` and drop a trailing empty
fragment (`path_fragments[-1] == ''`). -/
def split_resource_path (p : Str) : List Str :=
  let fragments := splitSlash p
  if fragments.getLast? = some [] then fragments.dropLast else fragments

/-- A resource as `views._resolve_resource` consumes one (duck-typed):
`resource_path` (`rpath`), an underlying model object (`model`, the value a
`ModelResource` holds — an opaque identifier here), and `get_child_resource`
as a finite fragment-to-child map.  This matches the calling convention
views.py uses (`resource.get_child_resource(path_fragment)`) and its tests
exercise. -/
inductive RTree where
  | node (rpath : Option Str) (model : Nat) (children : List (Str × RTree))

/-- `resource.resource_path`. -/
def RTree.rpath : RTree → Option Str
  | .node p _ _ => p

/-- `resource.model`. -/
def RTree.model : RTree → Nat
  | .node _ m _ => m

/-- `resource.resource_path = p` (assignment during traversal). -/
def RTree.withPath (t : RTree) (p : Str) : RTree :=
  match t with
  | .node _ m c => .node (some p) m c

/-- `resource.get_child_resource(path_fragment)` at the duck-typed level:
look the fragment up in the child map. -/
def RTree.get_child_resource (t : RTree) (frag : Str) : Option RTree :=
  match t with
  | .node _ _ cs => dget cs frag

/-- The loop body of `views._resolve_resource`, with the accumulated
`cur_resource_path` explicit: look up the child, fail with `None` if there
is none, extend the traversed path, and assign it as the child's
`resource_path` when that is unset. -/
def resolveFrom : RTree → Str → List Str → Option RTree
  | r, _, [] => some r
  | r, cur, f :: rest =>
    match r.get_child_resource f with
    | none => none
    | some child =>
      let cur2 := cur ++ '/' :: f
      let child2 := if child.rpath = none then child.withPath cur2 else child
      resolveFrom child2 cur2 rest

/-- `views._resolve_resource(root_resource, path_fragments)`. -/
def resolve_resource (root : RTree) (frags : List Str) : Option RTree :=
  resolveFrom root [] frags

/-- `APIContext.resolve_resource_path`: split, then resolve. -/
def resolve_resource_path (root : RTree) (p : Str) : Option RTree :=
  resolve_resource root (split_resource_path p)

/-! ## Python positional-argument binding

views.py invokes two methods with fewer positional arguments than every
implementation of those methods in resources.py declares:

* `views._resolve_resource` (line 86) calls
  `resource.get_child_resource(path_fragment)` — one argument — while
  `Resource.get_child_resource`, `APIResource.get_child_resource` and
  `QuerySetResource.get_child_resource` are all declared
  `def get_child_resource(self, ctx, path_fragment)` — two parameters
  after `self`;
* `views._process_delete` (line 124) calls `resource.delete()` — no
  arguments — while `ModelResource.delete` is declared
  `def delete(self, ctx)` — one parameter after `self`.

In Python, binding a call with the wrong number of positional arguments
raises `TypeError` before the method body runs.  `pyCall` models exactly
that binding step. -/

/-- Outcome classes of a dispatched request that the claims distinguish:
an HTTP response with a status code, or an exception escaping the
dispatcher. -/
inductive PyOutcome (α : Type) where
  | ok (a : α)
  | typeError
deriving DecidableEq

/-- Python call binding: the body's result if the positional argument count
matches the declared parameter count, `TypeError` otherwise. -/
def pyCall {α : Type} (param_count arg_count : Nat) (body : α) : PyOutcome α :=
  if arg_count = param_count then .ok body else .typeError

/-- Parameters after `self` of every `get_child_resource` implementation in
resources.py (`ctx`, `path_fragment`). -/
def get_child_resource_param_count : Nat := 2

/-- Positional arguments `views._resolve_resource` passes to
`get_child_resource` (just `path_fragment`). -/
def get_child_resource_arg_count : Nat := 1

/-- `views._resolve_resource` composed with the resources.py
implementations of `get_child_resource`, with Python argument binding
tracked: each child-lookup call goes through `pyCall` with the declared
parameter count of the resources.py methods versus the argument count of
the views.py call site. -/
def resolveFromPy : RTree → Str → List Str → PyOutcome (Option RTree)
  | r, _, [] => .ok (some r)
  | r, cur, f :: rest =>
    match pyCall get_child_resource_param_count get_child_resource_arg_count
        (r.get_child_resource f) with
    | .typeError => .typeError
    | .ok none => .ok none
    | .ok (some child) =>
      let cur2 := cur ++ '/' :: f
      let child2 := if child.rpath = none then child.withPath cur2 else child
      resolveFromPy child2 cur2 rest

/-- `views.api_view.view` restricted to resolution + the 404 branch, over
the composed resolver: `None` becomes a 404 response, a resolved resource
is handed to the verb dispatch (abstracted as status 200 here), and an
escaping exception stays an exception. -/
def dispatch_resolution (root : RTree) (p : Str) : PyOutcome Nat :=
  match resolveFromPy root [] (split_resource_path p) with
  | .typeError => .typeError
  | .ok none => .ok 404
  | .ok (some _) => .ok 200

/-! ## `views._process_delete` and `Resource.allowed_methods`

`Resource.allowed_methods` probes, for each HTTP verb, whether the
lower-cased handler method exists on the resource; `ModelResource` defines
`get`, `put` and `delete` (and no `post`). -/

/-- The verb list `['GET', 'POST', 'PUT', 'DELETE']` that
`Resource.allowed_methods` walks, each verb paired with
`http_method.lower()` — the handler name probed via `getattr`. -/
def http_verbs : List (String × String) :=
  [("GET", "get"), ("POST", "post"), ("PUT", "put"), ("DELETE", "delete")]

/-- `Resource.allowed_methods`: the verbs whose lower-cased handler name is
among the methods the concrete resource defines. -/
def allowed_methods (handlers : List String) : List String :=
  (http_verbs.filter (fun v => handlers.contains v.2)).map (fun v => v.1)

/-- Handler methods defined on `resources.ModelResource`: `get`, `put`,
`delete`. -/
def ModelResource.handler_names : List String := ["get", "put", "delete"]

/-- Parameters after `self` of `ModelResource.delete` (`ctx`). -/
def ModelResource.delete_param_count : Nat := 1

/-- Positional arguments `views._process_delete` passes in
`resource.delete()` (none). -/
def process_delete_arg_count : Nat := 0

/-- The response value of `views._process_delete`: a status code plus the
body (`none` = empty body; for 405, the `Allowed` header is the set of
allowed methods — a Python set, so its serialized order is unspecified and
only the set is recorded). -/
structure HttpResponse where
  status : Nat
  body : Option String
  allowed_header : Option (Finset String)
deriving DecidableEq

/-- `views._process_delete` on a resource with the given defined handler
methods whose `delete` declares `delete_params` parameters after `self`:
if `'DELETE'` is among `allowed_methods`, invoke `resource.delete()`
(through Python argument binding) and answer 200 with an empty body,
otherwise answer 405 with the `Allowed` header. -/
def process_delete (handlers : List String) (delete_params : Nat) :
    PyOutcome HttpResponse :=
  if (allowed_methods handlers).contains "DELETE" then
    match pyCall delete_params process_delete_arg_count () with
    | .typeError => .typeError
    | .ok _ => .ok { status := 200, body := none, allowed_header := none }
  else
    .ok { status := 405, body := none,
          allowed_header := some (allowed_methods handlers).toFinset }

/-- The status code of a dispatch outcome, when it is a response at all. -/
def PyOutcome.statusOf : PyOutcome HttpResponse → Option Nat
  | .ok r => some r.status
  | .typeError => none

/-! ## `views.APIContext` and `fields.URIResourceField` -/

/-- `views.APIContext`: the per-request base URI and root resource
(both as the resolver consumes them). -/
structure APIContext where
  base_uri : Str
  root_resource : RTree

/-- `APIContext.resolve_resource_uri`: `None` unless the URI starts with
the base URI, else resolve the remainder as a resource path. -/
def APIContext.resolve_resource_uri (ctx : APIContext) (uri : Str) : Option RTree :=
  if ctx.base_uri.isPrefixOf uri then
    resolve_resource_path ctx.root_resource (uri.drop ctx.base_uri.length)
  else
    none

/-- Exceptions distinguished by the field-descriptor claims. -/
inductive PyErr where
  | keyError
  | valueError
  | attributeError
deriving DecidableEq

/-- `fields.URIResourceField`: the relationship attribute name (`attr`,
for `self._attribute`) and the optional explicit wire name
(`self._published_property`). -/
structure URIResourceField where
  attr : String
  published_property : Option String

/-- `URIResourceField._compute_property`: the explicit wire name if set,
else the formatter's default transformation of the attribute name
(`fmtDefault` stands for `ctx.formatter.default_published_property`,
an external collaborator). -/
def URIResourceField.compute_property (f : URIResourceField)
    (fmtDefault : String → String) : String :=
  match f.published_property with
  | some p => p
  | none => fmtDefault f.attr

/-- `URIResourceField.handle_incoming`: read the wire property (KeyError if
absent), resolve it through `ctx.resolve_resource_uri`, raise
`ValueError('invalid URI: ...')` if that yields `None`, else set the target
object's attribute to the resolved resource's underlying model.  The target
object is modelled as its attribute dictionary (attribute values are model
identifiers, as set here). -/
def URIResourceField.handle_incoming (f : URIResourceField)
    (fmtDefault : String → String) (ctx : APIContext)
    (source_dict : List (String × Str)) (target : List (String × Nat)) :
    Except PyErr (List (String × Nat)) :=
  match dget source_dict (f.compute_property fmtDefault) with
  | none => .error .keyError
  | some uri =>
    match ctx.resolve_resource_uri uri with
    | none => .error .valueError
    | some r => .ok (dset target f.attr r.model)

/-! ## `fields.AttributeField` — dotted attribute paths

Python objects reachable through attribute access are modelled as `PyObj`:
`None`, a scalar value, or an object with an attribute dictionary.  The
object graph is modelled as a tree, so mutating an object reached by a
dotted path in place is rebuilding the spine of that path functionally. -/

/-- A Python value as the attribute-scalar field traverses it. -/
inductive PyObj where
  | pynone
  | prim (v : Nat)
  | obj (attrs : List (String × PyObj))

/-- `getattr(o, a)`: attribute lookup; `AttributeError` on `None`, on a
scalar, or when the attribute is missing. -/
def getattrPy : PyObj → String → Except PyErr PyObj
  | .pynone, _ => .error .attributeError
  | .prim _, _ => .error .attributeError
  | .obj attrs, a =>
    match dget attrs a with
    | some v => .ok v
    | none => .error .attributeError

/-- `setattr(o, a, v)`: only objects accept attribute assignment;
`AttributeError` on `None` or a scalar. -/
def setattrPy : PyObj → String → PyObj → Except PyErr PyObj
  | .obj attrs, a, v => .ok (.obj (dset attrs a v))
  | .pynone, _, _ => .error .attributeError
  | .prim _, _, _ => .error .attributeError

/-- `fields.AttributeField`: `attrs` is `self._attrs`, the `'.'`-split
segments of the `attribute` constructor argument (`self._full_attribute`);
`published_property` is `self._published_property`. -/
structure AttributeField where
  attrs : List String
  published_property : Option String

/-- `AttributeField._bare_attribute`: the last segment of the dotted path
(a split result is never empty, so the default is never consulted on a
field built from a Python attribute string). -/
def AttributeField.bare_attribute (f : AttributeField) : String :=
  f.attrs.getLastD ""

/-- `self._attrs[:-1]`: the intermediate hops of the dotted path. -/
def AttributeField.inter_attrs (f : AttributeField) : List String :=
  f.attrs.dropLast

/-- `AttributeField._compute_property`: explicit wire name if set, else the
formatter's default transformation of the bare attribute (`fmtDefault`
stands for `ctx.formatter.default_published_property`). -/
def AttributeField.compute_property (f : AttributeField)
    (fmtDefault : String → String) : String :=
  match f.published_property with
  | some p => p
  | none => fmtDefault f.bare_attribute

/-- The loop of `AttributeField._get_object`: walk the intermediate hops by
`getattr`, returning `None` early as soon as a hop evaluates to `None`. -/
def walkInter : PyObj → List String → Except PyErr PyObj
  | o, [] => .ok o
  | o, a :: rest =>
    match getattrPy o a with
    | .error e => .error e
    | .ok o2 =>
      match o2 with
      | .pynone => .ok .pynone
      | o2 => walkInter o2 rest

/-- `AttributeField._get_object(root_obj)`. -/
def AttributeField.get_object (f : AttributeField) (root : PyObj) : Except PyErr PyObj :=
  walkInter root f.inter_attrs

/-- `AttributeField._get(obj)`: traverse the intermediate hops, give `None`
if they end at `None`, else read the bare attribute. -/
def AttributeField.get (f : AttributeField) (root : PyObj) : Except PyErr PyObj :=
  match f.get_object root with
  | .error e => .error e
  | .ok .pynone => .ok .pynone
  | .ok o => getattrPy o f.bare_attribute

/-- `AttributeField._set(obj, value)`: `_get_object` followed by `setattr`
on the traversed object; on the tree-shaped object graph, the in-place
mutation is the functional rebuild of the traversed spine.  A `None`
intermediate makes `_get_object` return `None` and the subsequent
`setattr(None, ...)` raise `AttributeError` (the `TODO: handle None` edge
in the source). -/
def setPathPy : PyObj → List String → String → PyObj → Except PyErr PyObj
  | o, [], bare, v => setattrPy o bare v
  | o, a :: rest, bare, v =>
    match getattrPy o a with
    | .error e => .error e
    | .ok c =>
      match c with
      | .pynone => .error .attributeError
      | c =>
        match setPathPy c rest bare v with
        | .error e => .error e
        | .ok c2 => setattrPy o a c2

/-- `AttributeField._set` over the field's own path. -/
def AttributeField.set (f : AttributeField) (root : PyObj) (v : PyObj) :
    Except PyErr PyObj :=
  setPathPy root f.inter_attrs f.bare_attribute v

/-- `AttributeField.handle_outgoing`: write the formatted value of `_get`
under the computed wire name (`to_api` stands for the formatter's
`to_api_value`, an external collaborator; per the spec it maps null to a
null wire value). -/
def AttributeField.handle_outgoing (f : AttributeField)
    (fmtDefault : String → String) (to_api : PyObj → PyObj) (source : PyObj)
    (target : List (String × PyObj)) : Except PyErr (List (String × PyObj)) :=
  match f.get source with
  | .error e => .error e
  | .ok v => .ok (dset target (f.compute_property fmtDefault) (to_api v))

/-- `AttributeField.handle_incoming`: read the wire property (KeyError if
absent), convert through the formatter's `to_python_value` (`to_python`),
and `_set` it onto the target object. -/
def AttributeField.handle_incoming (f : AttributeField)
    (fmtDefault : String → String) (to_python : PyObj → PyObj)
    (source_dict : List (String × PyObj)) (target : PyObj) :
    Except PyErr PyObj :=
  match dget source_dict (f.compute_property fmtDefault) with
  | none => .error .keyError
  | some av => f.set target (to_python av)

/-- Decidable check that every intermediate hop of a dotted path exists and
is non-null on `o`. -/
def allHopsOk (o : PyObj) : List String → Bool
  | [] => true
  | a :: rest =>
    match getattrPy o a with
    | .error _ => false
    | .ok c =>
      match c with
      | .pynone => false
      | c => allHopsOk c rest

/-! ## `fields.RelatedManagerField.handle_incoming` — collection reconciliation

The related collection is modelled as a manager holding a list of models;
a model is its published key (`str(getattr(model, attr))`, with the
published key type taken as the string identity) plus an abstract data
payload that `put` overwrites.  `put` through a `ModelResource` is modelled
as replacing the payload (the published key of an existing member is not
itself a writable field of the resource).  A wire entry is the optional
`'_id'` value plus the payload its other properties carry.  The in-place
mutations (`put`, `manager.add`, `manager.remove`, `model.delete()`) are
recorded in an explicit `ManagerEffects` value. -/

/-- A member of the related collection. -/
structure DBModel where
  key : String
  data : Nat
deriving DecidableEq

/-- The related manager: its current members, and whether it has a `remove`
operation (absent when the foreign key is not nullable). -/
structure Manager where
  members : List DBModel
  has_remove : Bool

/-- One entry of the incoming wire list: the `'_id'` value when present,
and the payload carried by the rest of the entry. -/
structure WireEntry where
  wid : Option String
  payload : Nat

/-- `ModelResource.get_from_queryset(manager.all(), fragment)`: the member
whose published key equals the fragment (`DoesNotExist` when there is
none). -/
def get_from_queryset (members : List DBModel) (fragment : String) : Option DBModel :=
  members.find? (fun m => m.key = fragment)

/-- `model_resource.put(ctx, model_dict)` on the member with the given key:
overwrite its payload in place. -/
def putByKey (members : List DBModel) (k : String) (payload : Nat) : List DBModel :=
  members.map (fun m => if m.key = k then { m with data := payload } else m)

/-- `self._resource_class.create_resource()` followed by `put`: a fresh,
uncommitted model holding the entry's payload (its published key is not
yet assigned; the source never reads it). -/
def createModel (payload : Nat) : DBModel :=
  { key := "", data := payload }

/-- `s.add(k)` on a Python set modelled as a duplicate-free list (the
claims only consult membership, never iteration order). -/
def pysetAdd (s : List String) (k : String) : List String :=
  if k ∈ s then s else s ++ [k]

/-- State of the reconciliation loop over the incoming entries:
`request_keys`, `new_models`, and the (mutated-in-place) current members. -/
structure ReconcileState where
  request_keys : List String
  new_models : List DBModel
  members : List DBModel

/-- One iteration of the `for model_dict in source_dict[...]` loop: an entry
with `'_id'` looks the member up in the manager (raising `DoesNotExist`
past the field when there is none), records its key as kept, and updates it
in place when its key is among `db_keys`; an entry without `'_id'` stages a
newly created member. -/
def reconcileStep (db_keys : List String) (st : ReconcileState) (e : WireEntry) :
    Except Unit ReconcileState :=
  match e.wid with
  | some i =>
    match get_from_queryset st.members i with
    | none => .error ()
    | some m =>
      let st2 := { st with request_keys := pysetAdd st.request_keys m.key }
      if m.key ∈ db_keys then
        .ok { st2 with members := putByKey st2.members m.key e.payload }
      else
        .ok st2
  | none =>
    .ok { st with new_models := st.new_models ++ [createModel e.payload] }

/-- The mutations `RelatedManagerField.handle_incoming` performs, recorded
explicitly: the members passed to `manager.add`, those passed to
`manager.remove` (association removed, object kept), and those on which
`model.delete()` was called (deleted outright). -/
structure ManagerEffects where
  added : List DBModel
  removed_via_manager : List DBModel
  deleted : List DBModel
deriving DecidableEq

/-- `RelatedManagerField.handle_incoming`: snapshot `db_keys` / `db_models`
from the current members, reconcile each incoming entry, add the staged new
members, and remove `db_models[key]` for every `key in db_keys -
request_keys` — via `manager.remove` when the manager has one, else by
deleting each member outright. -/
def RelatedManagerField.handle_incoming (manager : Manager)
    (entries : List WireEntry) : Except Unit ManagerEffects :=
  let db_keys : List String :=
    manager.members.foldl (fun s m => pysetAdd s m.key) []
  let db_models : List (String × DBModel) :=
    manager.members.foldl (fun d m => dset d m.key m) []
  match entries.foldlM (reconcileStep db_keys)
      { request_keys := [], new_models := [], members := manager.members } with
  | .error e => .error e
  | .ok st =>
    let models_to_remove : List DBModel :=
      (db_keys.filter (fun k => k ∉ st.request_keys)).filterMap
        (fun k => dget db_models k)
    if manager.has_remove then
      .ok { added := st.new_models, removed_via_manager := models_to_remove,
            deleted := [] }
    else
      .ok { added := st.new_models, removed_via_manager := [],
            deleted := models_to_remove }

/-- The keys the incoming entries record as kept: every `'_id'` present
(under the hypothesis that each such id matches a current member, the key
recorded from the matched member is the id itself). -/
def keptKeys (entries : List WireEntry) : List String :=
  entries.foldl
    (fun s e =>
      match e.wid with
      | some i => pysetAdd s i
      | none => s) []

/-! ## `resources.ModelResource` — key and derived resource path -/

/-- `resources.ModelResource`, as its `resource_path` property consumes it:
the explicitly assigned path (`self._resource_path`), the class attribute
`parent_resource_path`, the name component of `published_key`, and the
wrapped model's attribute dictionary (attribute values as their `str`
forms). -/
structure ModelResource where
  assigned_path : Option String
  parent_resource_path : Option String
  published_key_attr : String
  model : List (String × String)

/-- `str(getattr(self.model, attr))` for `ModelResource.key`
(`AttributeError` when the model lacks the attribute). -/
def ModelResource.key (r : ModelResource) : Except PyErr String :=
  match dget r.model r.published_key_attr with
  | some v => .ok v
  | none => .error .attributeError

/-- The `ModelResource.resource_path` property: the explicitly assigned
path when set; else `parent_resource_path + '/' + str(self.key)` when
`parent_resource_path` is set; else `None`. -/
def ModelResource.resource_path (r : ModelResource) : Except PyErr (Option String) :=
  match r.assigned_path with
  | some p => .ok (some p)
  | none =>
    match r.parent_resource_path with
    | some pp =>
      match r.key with
      | .error e => .error e
      | .ok k => .ok (some (pp ++ "/" ++ k))
    | none => .ok none

/-! ## `resources.APIResource.register` -/

/-- A resource as `APIResource.register` consumes it: something with a
string `resource_path` (as `Str`, so that Python's `'/' in path` is
character membership). -/
structure RegisteredResource where
  resource_path : Str
deriving DecidableEq

/-- `resources.APIResource`: its own `resource_path` and the
`_child_resources` dictionary. -/
structure APIResource where
  resource_path : Str
  child_resources : List (Str × RegisteredResource)
deriving DecidableEq

/-- `APIResource.register`: raise `ValueError('resource_path should be
top-level')` when the resource's path contains `'/'` (the check precedes
the dictionary store, so a raise leaves `_child_resources` untouched), else
store the resource under its path and return `self` — the root resource,
now holding the new child. -/
def APIResource.register (api : APIResource) (r : RegisteredResource) :
    Except PyErr APIResource :=
  if '/' ∈ r.resource_path then
    .error .valueError
  else
    .ok { api with child_resources := dset api.child_resources r.resource_path r }

/-! ## Shared dictionary lemmas -/

/-- Storing then reading the same key gives the stored value. -/
theorem dget_dset_same {κ α : Type} [DecidableEq κ] (d : List (κ × α)) (k : κ) (v : α) :
    dget (dset d k v) k = some v := by
  simp [dget, dset, List.find?]

/-- Filtering out the bindings of one key leaves the first binding of every
other key unchanged. -/
theorem find_filter_other {κ α : Type} [DecidableEq κ] (k k2 : κ) (h : k2 ≠ k) :
    ∀ d : List (κ × α),
      (d.filter (fun p => p.1 ≠ k)).find? (fun p => p.1 = k2) =
        d.find? (fun p => p.1 = k2)
  | [] => rfl
  | p :: t => by
    by_cases hp : p.1 = k
    · have hp2 : ¬ p.1 = k2 := fun h2 => h (h2 ▸ hp)
      rw [List.filter_cons_of_neg (by simpa using hp),
        List.find?_cons_of_neg _ (by simpa using hp2)]
      exact find_filter_other k k2 h t
    · rw [List.filter_cons_of_pos (by simpa using hp)]
      by_cases hq : p.1 = k2
      · rw [List.find?_cons_of_pos _ (by simpa using hq),
          List.find?_cons_of_pos _ (by simpa using hq)]
      · rw [List.find?_cons_of_neg _ (by simpa using hq),
          List.find?_cons_of_neg _ (by simpa using hq)]
        exact find_filter_other k k2 h t

/-- Storing one key leaves every other key's binding unchanged. -/
theorem dget_dset_other {κ α : Type} [DecidableEq κ] (d : List (κ × α)) (k k2 : κ) (v : α)
    (h : k2 ≠ k) : dget (dset d k v) k2 = dget d k2 := by
  unfold dget dset
  rw [List.find?_cons_of_neg _ (by simpa using fun h2 => h h2.symm)]
  rw [find_filter_other k k2 h d]

/-! ## C1 — force-prefetch redirection on `Related` -/

/-- Every plan derived from a force-prefetch plan by `sub_select` /
`sub_prefetch` has force-prefetch set. -/
theorem Related.Descendant.force_preserved {r d : Related}
    (hdesc : Related.Descendant r d) (hforce : r.force_prefetch = true) :
    d.force_prefetch = true := by
  induction hdesc with
  | refl => exact hforce
  | sub_sel d2 attr _ ih => simpa [Related.sub_select] using ih
  | sub_pre d2 attr _ => simp [Related.sub_prefetch]

/-- C1: on a `Related` plan whose force-prefetch flag is set, and on every
plan derived from it through `sub_select` / `sub_prefetch`, a `select(attr)`
call adds the prefix-qualified attribute to the shared prefetch set and
leaves the shared selection set unchanged. -/
theorem related_forced_select_goes_to_prefetch (r d : Related) (s : RelatedSets)
    (attr : String) (hforce : r.force_prefetch = true)
    (hdesc : Related.Descendant r d) :
    (d.select s attr).prefetch_set = insert (d.translate attr) s.prefetch_set ∧
    (d.select s attr).select_set = s.select_set := by
  have hd : d.force_prefetch = true := hdesc.force_preserved hforce
  constructor <;> simp [Related.select, Related.prefetch, hd]

/-- C1 witness: a concrete forced plan, a `sub_select`-derived descendant,
and a concrete `select` call landing in the prefetch set only. -/
theorem related_forced_select_goes_to_prefetch_witness :
    (Related.mk none true).force_prefetch = true ∧
    ((((Related.mk none true).sub_select "owner").select
        (RelatedSets.mk ∅ ∅) "name").prefetch_set =
      insert (((Related.mk none true).sub_select "owner").translate "name")
        (RelatedSets.mk ∅ ∅).prefetch_set ∧
     (((Related.mk none true).sub_select "owner").select
        (RelatedSets.mk ∅ ∅) "name").select_set =
       (RelatedSets.mk ∅ ∅).select_set) :=
  ⟨rfl,
   related_forced_select_goes_to_prefetch (Related.mk none true)
     ((Related.mk none true).sub_select "owner") (RelatedSets.mk ∅ ∅) "name" rfl
     (Related.Descendant.sub_sel _ _ _ (Related.Descendant.refl _))⟩

/-! ## C4 — empty path and trailing separator -/

/-- A split never produces an empty fragment list (Python
`s.split('/')` is never `[]`). -/
theorem splitSlash_ne_nil (p : Str) : splitSlash p ≠ [] := by
  cases p with
  | nil => simp [splitSlash]
  | cons c rest =>
    simp only [splitSlash]
    split
    · simp
    · split <;> simp

/-- Appending one separator appends one empty fragment to the split. -/
theorem splitSlash_concat_slash (p : Str) :
    splitSlash (p ++ ['/']) = splitSlash p ++ [[]] := by
  induction p with
  | nil => rfl
  | cons c rest ih =>
    by_cases h : c = '/'
    · simp [splitSlash, h, ih]
    · obtain ⟨hd, tl, hsp⟩ : ∃ hd tl, splitSlash rest = hd :: tl := by
        cases hsp2 : splitSlash rest with
        | nil => exact absurd hsp2 (splitSlash_ne_nil rest)
        | cons hd tl => exact ⟨hd, tl, rfl⟩
      simp [List.cons_append, splitSlash, h, ih, hsp]

/-- Unfolding `splitSlash` once on a leading separator. -/
theorem splitSlash_cons_slash (rest : Str) :
    splitSlash ('/' :: rest) = [] :: splitSlash rest := by
  simp [splitSlash]

/-- Unfolding `splitSlash` once on a leading non-separator character. -/
theorem splitSlash_cons_other (c : Char) (rest : Str) (h : c ≠ '/') (hd : Str)
    (tl : List Str) (hsp : splitSlash rest = hd :: tl) :
    splitSlash (c :: rest) = (c :: hd) :: tl := by
  simp [splitSlash, h, hsp]

/-- A nonempty path that does not end in the separator splits with a
nonempty last fragment. -/
theorem splitSlash_getLast_ne_empty (p : Str) (hne : p ≠ [])
    (hsl : p.getLast? ≠ some '/') : (splitSlash p).getLast? ≠ some [] := by
  induction p with
  | nil => exact absurd rfl hne
  | cons c rest ih =>
    cases rest with
    | nil =>
      have hc : c ≠ '/' := by simpa using hsl
      simp [splitSlash, hc]
    | cons c2 rest2 =>
      have hlast : (c2 :: rest2 : Str).getLast? ≠ some '/' := by
        simpa [List.getLast?_cons_cons] using hsl
      have ihr := ih (by simp) hlast
      obtain ⟨hd, tl, hsp⟩ : ∃ hd tl, splitSlash (c2 :: rest2) = hd :: tl := by
        cases hsp2 : splitSlash (c2 :: rest2) with
        | nil => exact absurd hsp2 (splitSlash_ne_nil _)
        | cons hd tl => exact ⟨hd, tl, rfl⟩
      rw [hsp] at ihr
      by_cases h : c = '/'
      · have hstep : splitSlash (c :: c2 :: rest2) = [] :: hd :: tl := by
          rw [h, splitSlash_cons_slash, hsp]
        rw [hstep]
        simpa [List.getLast?_cons_cons] using ihr
      · have hstep : splitSlash (c :: c2 :: rest2) = (c :: hd) :: tl :=
          splitSlash_cons_other c _ h hd tl hsp
        rw [hstep]
        cases tl with
        | nil => simp
        | cons t1 ts => simpa [List.getLast?_cons_cons] using ihr

/-- For a nonempty path not ending in the separator, appending one
separator does not change the split fragments: the appended empty fragment
is exactly the one `_split_resource_path` drops. -/
theorem split_resource_path_concat_slash (p : Str) (hne : p ≠ [])
    (hsl : p.getLast? ≠ some '/') :
    split_resource_path (p ++ ['/']) = split_resource_path p := by
  unfold split_resource_path
  simp only [splitSlash_concat_slash, List.getLast?_concat, List.dropLast_concat]
  simp [splitSlash_getLast_ne_empty p hne hsl]

/-- C4 (amended): resolving the empty path returns the root resource, and
for every nonempty path that does not already end in the separator,
resolving it with one trailing separator appended resolves to the same
resource as resolving it without the separator. -/
theorem resolve_empty_and_trailing_sep (root : RTree) (p : Str)
    (hne : p ≠ []) (hsl : p.getLast? ≠ some '/') :
    resolve_resource_path root [] = some root ∧
    resolve_resource_path root (p ++ ['/']) = resolve_resource_path root p := by
  refine ⟨rfl, ?_⟩
  unfold resolve_resource_path
  rw [split_resource_path_concat_slash p hne hsl]

/-- C4 counterexample: on a root whose child map is empty, the empty path
resolves to the root but the empty path with one trailing separator
appended (i.e. `"/"`) resolves to nothing — `_split_resource_path` turns
`"/"` into one empty fragment, and the root has no child under the empty
fragment.  So resolving a path with a trailing separator appended is not,
for every path, the same as resolving the path itself. -/
theorem resolve_trailing_sep_counterexample :
    resolve_resource_path (RTree.node (some []) 0 []) (([] : Str) ++ ['/']) = none ∧
    resolve_resource_path (RTree.node (some []) 0 []) [] =
      some (RTree.node (some []) 0 []) ∧
    (none : Option RTree) ≠ some (RTree.node (some []) 0 []) :=
  ⟨rfl, rfl, fun h => Option.noConfusion h⟩

/-- C4 witness: a concrete tree and the concrete path `"a"`, where
appending a trailing separator does not change resolution. -/
theorem resolve_empty_and_trailing_sep_witness :
    (['a'] : Str) ≠ [] ∧ (['a'] : Str).getLast? ≠ some '/' ∧
    (resolve_resource_path (RTree.node (some []) 0 [(['a'], RTree.node none 1 [])])
        [] =
      some (RTree.node (some []) 0 [(['a'], RTree.node none 1 [])]) ∧
     resolve_resource_path (RTree.node (some []) 0 [(['a'], RTree.node none 1 [])])
        ((['a'] : Str) ++ ['/']) =
      resolve_resource_path (RTree.node (some []) 0 [(['a'], RTree.node none 1 [])])
        ['a']) :=
  ⟨by decide, by decide,
   resolve_empty_and_trailing_sep _ ['a'] (by decide) (by decide)⟩

/-! ## C2 — resolution lets a `TypeError` escape instead of 404-ing -/

/-- C2: the resolution/404 behaviour the claim describes does not happen on
the code as written.  `views._resolve_resource` passes one positional
argument to `get_child_resource`, but every implementation in resources.py
declares two (`ctx`, `path_fragment`); at the first fragment of any
nonempty path the call raises `TypeError`, which escapes the dispatcher —
the resolver neither returns "no resource" (404) nor descends.  Evaluated
here on a root with a child registered under `"c"` and the request path
`"c"`. -/
theorem resolution_typeerror_escapes :
    get_child_resource_param_count = 2 ∧
    get_child_resource_arg_count = 1 ∧
    dispatch_resolution
        (RTree.node (some []) 0 [(['c'], RTree.node none 1 [])]) ['c'] =
      .typeError ∧
    dispatch_resolution
        (RTree.node (some []) 0 [(['c'], RTree.node none 1 [])]) ['c'] ≠
      .ok 404 ∧
    dispatch_resolution
        (RTree.node (some []) 0 [(['c'], RTree.node none 1 [])]) ['c'] ≠
      .ok 200 :=
  ⟨rfl, rfl, rfl, by decide, by decide⟩

/-! ## C3 — DELETE dispatch raises `TypeError` instead of answering 200 -/

/-- C3: the 405 half of the claim holds, but the 200 half does not.
`ModelResource` implements `get`, `put` and `delete`, so `'DELETE'` is in
its `allowed_methods` and `views._process_delete` proceeds to
`resource.delete()` — zero arguments, while `ModelResource.delete` declares
one (`ctx`); the call raises `TypeError` instead of producing the claimed
200 empty-body response.  A resource without a `delete` handler is
answered 405, as claimed. -/
theorem process_delete_typeerror :
    (allowed_methods ModelResource.handler_names).contains "DELETE" = true ∧
    process_delete ModelResource.handler_names ModelResource.delete_param_count =
      .typeError ∧
    (process_delete ["get", "put"] ModelResource.delete_param_count).statusOf =
      some 405 :=
  ⟨by decide, rfl, rfl⟩

/-! ## C8 — URI-reference incoming resolution -/

/-- C8: on a URI-reference field's incoming pass whose wire property is
present, if the context's URI resolution yields nothing the operation
fails with `ValueError` (invalid reference) — the raise precedes the
`setattr`, so the target attribute is untouched — and if it yields a
resource, the target object's attribute is set to that resource's
underlying model object. -/
theorem uriField_incoming (f : URIResourceField) (fmtDefault : String → String)
    (ctx : APIContext) (source_dict : List (String × Str))
    (target : List (String × Nat)) (uri : Str)
    (hprop : dget source_dict (f.compute_property fmtDefault) = some uri) :
    (ctx.resolve_resource_uri uri = none →
      f.handle_incoming fmtDefault ctx source_dict target = .error .valueError) ∧
    (∀ r, ctx.resolve_resource_uri uri = some r →
      f.handle_incoming fmtDefault ctx source_dict target =
        .ok (dset target f.attr r.model) ∧
      dget (dset target f.attr r.model) f.attr = some r.model) := by
  constructor
  · intro hres
    simp [URIResourceField.handle_incoming, hprop, hres]
  · intro r hres
    constructor
    · simp [URIResourceField.handle_incoming, hprop, hres]
    · exact dget_dset_same target f.attr r.model

/-- C8 witness: a concrete context whose base URI is empty and whose root
is addressable; the URI equal to the base URI resolves to the root, and the
incoming pass stores the root's model under the field's attribute. -/
theorem uriField_incoming_witness :
    dget [("owner", ([] : Str))]
        ((URIResourceField.mk "owner" (some "owner")).compute_property id) =
      some ([] : Str) ∧
    ((URIResourceField.mk "owner" (some "owner")).handle_incoming id
        (APIContext.mk [] (RTree.node (some []) 7 [])) [("owner", [])] [] =
      .ok (dset [] "owner" 7) ∧
     dget (dset ([] : List (String × Nat)) "owner" 7) "owner" = some 7) :=
  ⟨rfl,
   (uriField_incoming (URIResourceField.mk "owner" (some "owner")) id
      (APIContext.mk [] (RTree.node (some []) 7 [])) [("owner", [])] [] []
      rfl).2 (RTree.node (some []) 7 []) rfl⟩

/-! ## C6 — null intermediate hop yields a null wire value -/

/-- If walking a leading part of the intermediate hops reaches an object
whose next hop evaluates to `None`, then the whole intermediate walk
returns `None` (the loop short-circuits). -/
theorem walkInter_append_null (pre : List String) :
    ∀ (source o : PyObj) (a : String) (post : List String),
      walkInter source pre = .ok o → getattrPy o a = .ok .pynone →
      walkInter source (pre ++ a :: post) = .ok .pynone := by
  induction pre with
  | nil =>
    intro source o a post hwalk hget
    have hso : source = o := by simpa [walkInter] using hwalk
    subst hso
    simp [walkInter, hget]
  | cons p ps ih =>
    intro source o a post hwalk hget
    simp only [List.cons_append, walkInter] at hwalk ⊢
    cases hga : getattrPy source p with
    | error e =>
      rw [hga] at hwalk
      exact Except.noConfusion hwalk
    | ok c =>
      rw [hga] at hwalk
      cases c with
      | pynone => rfl
      | prim v => exact ih _ o a post hwalk hget
      | obj l => exact ih _ o a post hwalk hget

/-- C6: on an attribute-scalar field whose dotted path has an intermediate
hop evaluating to `None` on the source object (all hops before it being
readable), `handle_outgoing` raises nothing and writes the formatted null —
a null wire value, since the formatter maps null to null — under the
computed wire property name. -/
theorem attributeField_null_intermediate (f : AttributeField)
    (fmtDefault : String → String) (to_api : PyObj → PyObj) (source : PyObj)
    (target : List (String × PyObj))
    (hfmt : to_api .pynone = .pynone)
    (hnull : ∃ pre a post o, f.inter_attrs = pre ++ a :: post ∧
      walkInter source pre = .ok o ∧ getattrPy o a = .ok .pynone) :
    f.handle_outgoing fmtDefault to_api source target =
      .ok (dset target (f.compute_property fmtDefault) PyObj.pynone) := by
  obtain ⟨pre, a, post, o, heq, hwalk, hget⟩ := hnull
  have hobj : f.get_object source = .ok .pynone := by
    unfold AttributeField.get_object
    rw [heq]
    exact walkInter_append_null pre source o a post hwalk hget
  have hv : f.get source = .ok .pynone := by
    simp [AttributeField.get, hobj]
  simp [AttributeField.handle_outgoing, hv, hfmt]

/-- C6 witness: the field `owner.name` on an object whose `owner` attribute
is `None`: outgoing writes a null under `"name"` without raising. -/
theorem attributeField_null_intermediate_witness :
    id PyObj.pynone = PyObj.pynone ∧
    (∃ pre a post o,
      (AttributeField.mk ["owner", "name"] (some "name")).inter_attrs =
        pre ++ a :: post ∧
      walkInter (PyObj.obj [("owner", PyObj.pynone)]) pre = .ok o ∧
      getattrPy o a = .ok .pynone) ∧
    (AttributeField.mk ["owner", "name"] (some "name")).handle_outgoing id id
        (PyObj.obj [("owner", PyObj.pynone)]) [] =
      .ok (dset []
        ((AttributeField.mk ["owner", "name"] (some "name")).compute_property id)
        PyObj.pynone) :=
  ⟨rfl,
   ⟨[], "owner", [], PyObj.obj [("owner", PyObj.pynone)], rfl, rfl, rfl⟩,
   attributeField_null_intermediate (AttributeField.mk ["owner", "name"] (some "name"))
     id id (PyObj.obj [("owner", PyObj.pynone)]) [] rfl
     ⟨[], "owner", [], PyObj.obj [("owner", PyObj.pynone)], rfl, rfl, rfl⟩⟩

/-! ## C7 — outgoing/incoming round trip on a dotted path -/

/-- When every intermediate hop exists and is non-null, the intermediate
walk succeeds, and (for a genuinely dotted path) does not end at `None`. -/
theorem allHopsOk_walk (inter : List String) :
    ∀ o : PyObj, allHopsOk o inter = true →
      ∃ fin, walkInter o inter = .ok fin ∧ (inter ≠ [] → fin ≠ .pynone) := by
  induction inter with
  | nil => exact fun o _ => ⟨o, rfl, fun hne => absurd rfl hne⟩
  | cons a rest ih =>
    intro o h
    simp only [allHopsOk] at h
    cases hga : getattrPy o a with
    | error e => rw [hga] at h; exact absurd h (by simp)
    | ok c =>
      rw [hga] at h
      cases c with
      | pynone => exact absurd h (by simp)
      | prim w =>
        obtain ⟨fin, hw, hf⟩ := ih (PyObj.prim w) h
        refine ⟨fin, ?_, fun _ => ?_⟩
        · simp only [walkInter, hga]
          exact hw
        · cases rest with
          | nil =>
            have hw2 : Except.ok (PyObj.prim w) = Except.ok fin := hw
            injection hw2 with hfin
            subst hfin
            exact fun hc => PyObj.noConfusion hc
          | cons r rs => exact hf (by simp)
      | obj l =>
        obtain ⟨fin, hw, hf⟩ := ih (PyObj.obj l) h
        refine ⟨fin, ?_, fun _ => ?_⟩
        · simp only [walkInter, hga]
          exact hw
        · cases rest with
          | nil =>
            have hw2 : Except.ok (PyObj.obj l) = Except.ok fin := hw
            injection hw2 with hfin
            subst hfin
            exact fun hc => PyObj.noConfusion hc
          | cons r rs => exact hf (by simp)

/-- Setting the bare attribute through a path of readable non-null
intermediate hops succeeds, and re-walking the same hops on the updated
object reaches the final object with its attribute dictionary updated. -/
theorem setPath_walk (inter : List String) :
    ∀ (o : PyObj) (fa : List (String × PyObj)) (bare : String) (v : PyObj),
      allHopsOk o inter = true →
      walkInter o inter = .ok (.obj fa) →
      ∃ attrs2, setPathPy o inter bare v = .ok (.obj attrs2) ∧
        walkInter (.obj attrs2) inter = .ok (.obj (dset fa bare v)) := by
  induction inter with
  | nil =>
    intro o fa bare v _ hwalk
    have hw2 : Except.ok o = Except.ok (PyObj.obj fa) := hwalk
    injection hw2 with ho
    subst ho
    exact ⟨dset fa bare v, rfl, rfl⟩
  | cons a rest ih =>
    intro o fa bare v hops hwalk
    simp only [allHopsOk] at hops
    cases hga : getattrPy o a with
    | error e => rw [hga] at hops; exact absurd hops (by simp)
    | ok c =>
      rw [hga] at hops
      cases o with
      | pynone => simp [getattrPy] at hga
      | prim w => simp [getattrPy] at hga
      | obj oat =>
        cases c with
        | pynone => exact absurd hops (by simp)
        | prim w =>
          have hwrest : walkInter (PyObj.prim w) rest = .ok (.obj fa) := by
            have hw := hwalk
            simp only [walkInter, hga] at hw
            exact hw
          obtain ⟨c2, hset, hw2⟩ := ih (PyObj.prim w) fa bare v hops hwrest
          refine ⟨dset oat a (.obj c2), ?_, ?_⟩
          · simp only [setPathPy, hga, hset, setattrPy]
          · simp only [walkInter, getattrPy, dget_dset_same]
            exact hw2
        | obj l =>
          have hwrest : walkInter (PyObj.obj l) rest = .ok (.obj fa) := by
            have hw := hwalk
            simp only [walkInter, hga] at hw
            exact hw
          obtain ⟨c2, hset, hw2⟩ := ih (PyObj.obj l) fa bare v hops hwrest
          refine ⟨dset oat a (.obj c2), ?_, ?_⟩
          · simp only [setPathPy, hga, hset, setattrPy]
          · simp only [walkInter, getattrPy, dget_dset_same]
            exact hw2

/-- C7: on an attribute-scalar field with a dotted path, over an object
whose intermediate hops along that path are all readable and non-null,
`handle_outgoing` followed by `handle_incoming` of the produced wire entry
back onto the same object succeeds and leaves the addressed attribute equal
to its original value, provided the formatter's `to_python_value` inverts
its `to_api_value` on that value. -/
theorem attributeField_roundtrip (f : AttributeField) (fmtDefault : String → String)
    (to_api to_python : PyObj → PyObj) (source : PyObj)
    (target : List (String × PyObj)) (v : PyObj)
    (hdot : f.inter_attrs ≠ [])
    (hhops : allHopsOk source f.inter_attrs = true)
    (hget : f.get source = .ok v)
    (hinv : to_python (to_api v) = v) :
    ∃ d2 source2,
      f.handle_outgoing fmtDefault to_api source target = .ok d2 ∧
      f.handle_incoming fmtDefault to_python d2 source = .ok source2 ∧
      f.get source2 = .ok v := by
  obtain ⟨fin, hwalk, hfinNN⟩ := allHopsOk_walk f.inter_attrs source hhops
  have hgo : f.get_object source = .ok fin := hwalk
  cases fin with
  | pynone => exact absurd rfl (hfinNN hdot)
  | prim w =>
    exfalso
    unfold AttributeField.get at hget
    rw [hgo] at hget
    simp [getattrPy] at hget
  | obj fa =>
    have hga : getattrPy (.obj fa) f.bare_attribute = .ok v := by
      unfold AttributeField.get at hget
      rw [hgo] at hget
      exact hget
    have hout : f.handle_outgoing fmtDefault to_api source target =
        .ok (dset target (f.compute_property fmtDefault) (to_api v)) := by
      have hv : f.get source = .ok v := hget
      simp [AttributeField.handle_outgoing, hv]
    obtain ⟨attrs2, hset, hwalk2⟩ :=
      setPath_walk f.inter_attrs source fa f.bare_attribute v hhops hgo
    have hin : f.handle_incoming fmtDefault to_python
        (dset target (f.compute_property fmtDefault) (to_api v)) source =
        .ok (.obj attrs2) := by
      have hsv : f.set source v = .ok (.obj attrs2) := hset
      simp [AttributeField.handle_incoming, dget_dset_same, hinv, hsv]
    refine ⟨_, .obj attrs2, hout, hin, ?_⟩
    have hgo2 : f.get_object (.obj attrs2) =
        .ok (.obj (dset fa f.bare_attribute v)) := hwalk2
    unfold AttributeField.get
    rw [hgo2]
    simp [getattrPy, dget_dset_same]

/-- C7 witness: the field `owner.name` on an object whose `owner.name` is
the scalar `5`, with identity formatters: serialize then deserialize leaves
`owner.name` equal to `5`. -/
theorem attributeField_roundtrip_witness :
    (AttributeField.mk ["owner", "name"] (some "name")).inter_attrs ≠ [] ∧
    allHopsOk (PyObj.obj [("owner", PyObj.obj [("name", PyObj.prim 5)])])
        (AttributeField.mk ["owner", "name"] (some "name")).inter_attrs = true ∧
    (AttributeField.mk ["owner", "name"] (some "name")).get
        (PyObj.obj [("owner", PyObj.obj [("name", PyObj.prim 5)])]) =
      .ok (PyObj.prim 5) ∧
    id (id (PyObj.prim 5)) = PyObj.prim 5 ∧
    (∃ d2 source2,
      (AttributeField.mk ["owner", "name"] (some "name")).handle_outgoing id id
          (PyObj.obj [("owner", PyObj.obj [("name", PyObj.prim 5)])]) [] = .ok d2 ∧
      (AttributeField.mk ["owner", "name"] (some "name")).handle_incoming id id d2
          (PyObj.obj [("owner", PyObj.obj [("name", PyObj.prim 5)])]) =
        .ok source2 ∧
      (AttributeField.mk ["owner", "name"] (some "name")).get source2 =
        .ok (PyObj.prim 5)) :=
  ⟨by simp [AttributeField.inter_attrs], rfl, rfl, rfl,
   attributeField_roundtrip (AttributeField.mk ["owner", "name"] (some "name")) id id
     id (PyObj.obj [("owner", PyObj.obj [("name", PyObj.prim 5)])]) []
     (PyObj.prim 5) (by simp [AttributeField.inter_attrs]) rfl rfl rfl⟩

/-! ## C5 — removal set and removal policy of the collection reconciliation -/

/-- Membership in a Python set after an `add`. -/
theorem mem_pysetAdd (s : List String) (k k2 : String) :
    k ∈ pysetAdd s k2 ↔ k ∈ s ∨ k = k2 := by
  unfold pysetAdd
  by_cases h : k2 ∈ s
  · simp only [if_pos h]
    constructor
    · exact Or.inl
    · rintro (hk | hk)
      · exact hk
      · rw [hk]; exact h
  · simp [if_neg h, List.mem_append]

/-- Membership in the `db_keys` accumulation. -/
theorem mem_db_keys (members : List DBModel) (k : String) :
    ∀ init : List String,
      k ∈ members.foldl (fun s m => pysetAdd s m.key) init ↔
        k ∈ init ∨ ∃ m ∈ members, m.key = k := by
  induction members with
  | nil => intro init; simp
  | cons m t ih =>
    intro init
    simp only [List.foldl_cons]
    rw [ih (pysetAdd init m.key), mem_pysetAdd]
    constructor
    · rintro ((h | h) | ⟨m2, hm2, hk⟩)
      · exact Or.inl h
      · exact Or.inr ⟨m, List.mem_cons_self m t, h.symm⟩
      · exact Or.inr ⟨m2, List.mem_cons_of_mem m hm2, hk⟩
    · rintro (h | ⟨m2, hm2, hk⟩)
      · exact Or.inl (Or.inl h)
      · rcases List.mem_cons.mp hm2 with h2 | h2
        · exact Or.inl (Or.inr (by rw [← h2]; exact hk.symm))
        · exact Or.inr ⟨m2, h2, hk⟩

/-- Membership in the `request_keys` / `keptKeys` accumulation. -/
theorem mem_keptKeys_aux (entries : List WireEntry) :
    ∀ (init : List String) (k : String),
      k ∈ entries.foldl
          (fun s e =>
            match e.wid with
            | some i => pysetAdd s i
            | none => s) init ↔
        k ∈ init ∨ ∃ e ∈ entries, e.wid = some k := by
  induction entries with
  | nil => intro init k; simp
  | cons e t ih =>
    intro init k
    simp only [List.foldl_cons]
    cases he : e.wid with
    | none =>
      rw [ih init k]
      constructor
      · rintro (h | ⟨e2, he2, hk⟩)
        · exact Or.inl h
        · exact Or.inr ⟨e2, List.mem_cons_of_mem e he2, hk⟩
      · rintro (h | ⟨e2, he2, hk⟩)
        · exact Or.inl h
        · rcases List.mem_cons.mp he2 with h2 | h2
          · rw [h2, he] at hk
            exact absurd hk (by simp)
          · exact Or.inr ⟨e2, h2, hk⟩
    | some i =>
      rw [ih (pysetAdd init i) k, mem_pysetAdd]
      constructor
      · rintro ((h | h) | ⟨e2, he2, hk⟩)
        · exact Or.inl h
        · exact Or.inr ⟨e, List.mem_cons_self e t, by rw [he, h]⟩
        · exact Or.inr ⟨e2, List.mem_cons_of_mem e he2, hk⟩
      · rintro (h | ⟨e2, he2, hk⟩)
        · exact Or.inl (Or.inl h)
        · rcases List.mem_cons.mp he2 with h2 | h2
          · rw [h2, he] at hk
            exact Or.inl (Or.inr (by injection hk with hk2; exact hk2.symm))
          · exact Or.inr ⟨e2, h2, hk⟩

/-- `putByKey` does not change the keys of the collection. -/
theorem putByKey_keys (l : List DBModel) (k : String) (payload : Nat) :
    (putByKey l k payload).map DBModel.key = l.map DBModel.key := by
  unfold putByKey
  rw [List.map_map]
  apply List.map_congr_left
  intro m _
  by_cases h : m.key = k <;> simp [h]

/-- For a key not among the members' keys, the `db_models` dictionary falls
through to its initial segment. -/
theorem dget_fold_dset_not_mem (members : List DBModel) (k : String) :
    ∀ d0 : List (String × DBModel),
      (∀ m ∈ members, m.key ≠ k) →
      dget (members.foldl (fun d m => dset d m.key m) d0) k = dget d0 k := by
  induction members with
  | nil => intro d0 _; rfl
  | cons m t ih =>
    intro d0 hk
    simp only [List.foldl_cons]
    rw [ih (dset d0 m.key m) (fun m2 hm2 => hk m2 (List.mem_cons_of_mem m hm2))]
    exact dget_dset_other d0 m.key k m
      (fun he => hk m (List.mem_cons_self m t) he.symm)

/-- With pairwise distinct keys, the `db_models` dictionary maps each
member's key to that member. -/
theorem dget_fold_dset_mem (members : List DBModel) :
    ∀ (m0 : DBModel) (d0 : List (String × DBModel)),
      (members.map DBModel.key).Nodup → m0 ∈ members →
      dget (members.foldl (fun d m => dset d m.key m) d0) m0.key = some m0 := by
  induction members with
  | nil => intro m0 d0 _ hm0; exact absurd hm0 (List.not_mem_nil m0)
  | cons m t ih =>
    intro m0 d0 hnodup hm0
    simp only [List.foldl_cons]
    rcases List.mem_cons.mp hm0 with h | h
    · subst h
      have hnk : ∀ m2 ∈ t, m2.key ≠ m0.key := by
        intro m2 hm2 he
        have hmem : m0.key ∈ t.map DBModel.key := by
          rw [← he]
          exact List.mem_map_of_mem DBModel.key hm2
        exact (List.nodup_cons.mp (by simpa using hnodup)).1 hmem
      rw [dget_fold_dset_not_mem t m0.key (dset d0 m0.key m0) hnk]
      exact dget_dset_same d0 m0.key m0
    · exact ih m0 (dset d0 m.key m)
        (List.nodup_cons.mp (by simpa using hnodup)).2 h

/-- Whatever the `db_models` dictionary yields was a member carrying the
looked-up key (or was already in the initial segment). -/
theorem dget_fold_dset_some (members : List DBModel) :
    ∀ (k : String) (m : DBModel) (d0 : List (String × DBModel)),
      dget (members.foldl (fun d m => dset d m.key m) d0) k = some m →
      (m ∈ members ∧ m.key = k) ∨ dget d0 k = some m := by
  induction members with
  | nil => intro k m d0 h; exact Or.inr h
  | cons m1 t ih =>
    intro k m d0 h
    simp only [List.foldl_cons] at h
    rcases ih k m (dset d0 m1.key m1) h with ⟨hmem, hkey⟩ | hd
    · exact Or.inl ⟨List.mem_cons_of_mem m1 hmem, hkey⟩
    · by_cases he : k = m1.key
      · rw [he, dget_dset_same] at hd
        injection hd with hm
        subst hm
        exact Or.inl ⟨List.mem_cons_self m1 t, he.symm⟩
      · rw [dget_dset_other d0 m1.key k m1 he] at hd
        exact Or.inr hd

/-- The reconciliation loop succeeds when every incoming `'_id'` matches a
current member; it preserves the members' keys and accumulates exactly the
incoming ids into `request_keys`. -/
theorem reconcile_fold_ok (db_keys : List String) :
    ∀ (entries : List WireEntry) (st0 : ReconcileState),
      (∀ e ∈ entries, ∀ i, e.wid = some i → i ∈ st0.members.map DBModel.key) →
      ∃ st, List.foldlM (reconcileStep db_keys) st0 entries = .ok st ∧
        st.members.map DBModel.key = st0.members.map DBModel.key ∧
        (∀ k, k ∈ st.request_keys ↔
          k ∈ st0.request_keys ∨ ∃ e ∈ entries, e.wid = some k) := by
  intro entries
  induction entries with
  | nil =>
    intro st0 _
    exact ⟨st0, rfl, rfl, fun k => by simp⟩
  | cons e t ih =>
    intro st0 hfound
    cases he : e.wid with
    | none =>
      have hstep : reconcileStep db_keys st0 e =
          .ok { st0 with new_models := st0.new_models ++ [createModel e.payload] } := by
        simp [reconcileStep, he]
      obtain ⟨st, hfold, hkeys, hreq⟩ :=
        ih { st0 with new_models := st0.new_models ++ [createModel e.payload] }
          (fun e2 he2 i hi => hfound e2 (List.mem_cons_of_mem e he2) i hi)
      refine ⟨st, ?_, hkeys, ?_⟩
      · rw [List.foldlM_cons, hstep]
        simpa using hfold
      · intro k
        rw [hreq k]
        constructor
        · rintro (h | ⟨e2, he2, hk⟩)
          · exact Or.inl h
          · exact Or.inr ⟨e2, List.mem_cons_of_mem e he2, hk⟩
        · rintro (h | ⟨e2, he2, hk⟩)
          · exact Or.inl h
          · rcases List.mem_cons.mp he2 with h2 | h2
            · rw [h2, he] at hk
              exact absurd hk (by simp)
            · exact Or.inr ⟨e2, h2, hk⟩
    | some i =>
      have hi : i ∈ st0.members.map DBModel.key :=
        hfound e (List.mem_cons_self e t) i he
      cases hfq : get_from_queryset st0.members i with
      | none =>
        exfalso
        obtain ⟨m, hm, hmkey⟩ : ∃ m ∈ st0.members, m.key = i := by simpa using hi
        have hfq2 : st0.members.find? (fun m => m.key = i) = none := by
          simpa [get_from_queryset] using hfq
        have hnone := List.find?_eq_none.mp hfq2 m hm
        simp [hmkey] at hnone
      | some m =>
        have hfq2 : st0.members.find? (fun m => m.key = i) = some m := by
          simpa [get_from_queryset] using hfq
        have hmkey : m.key = i := by simpa using List.find?_some hfq2
        by_cases hdb : m.key ∈ db_keys
        · have hstep : reconcileStep db_keys st0 e =
              .ok { st0 with
                    request_keys := pysetAdd st0.request_keys m.key,
                    members := putByKey st0.members m.key e.payload } := by
            simp [reconcileStep, he, hfq, hdb]
          obtain ⟨st, hfold, hkeys, hreq⟩ :=
            ih { st0 with
                 request_keys := pysetAdd st0.request_keys m.key,
                 members := putByKey st0.members m.key e.payload }
              (fun e2 he2 i2 hi2 => by
                show i2 ∈ (putByKey st0.members m.key e.payload).map DBModel.key
                rw [putByKey_keys]
                exact hfound e2 (List.mem_cons_of_mem e he2) i2 hi2)
          refine ⟨st, ?_, ?_, ?_⟩
          · rw [List.foldlM_cons, hstep]
            simpa using hfold
          · rw [hkeys]
            exact putByKey_keys st0.members m.key e.payload
          · intro k
            rw [hreq k]
            show k ∈ pysetAdd st0.request_keys m.key ∨ _ ↔ _
            rw [mem_pysetAdd, hmkey]
            constructor
            · rintro ((h | h) | ⟨e2, he2, hk⟩)
              · exact Or.inl h
              · exact Or.inr ⟨e, List.mem_cons_self e t, by rw [he, h]⟩
              · exact Or.inr ⟨e2, List.mem_cons_of_mem e he2, hk⟩
            · rintro (h | ⟨e2, he2, hk⟩)
              · exact Or.inl (Or.inl h)
              · rcases List.mem_cons.mp he2 with h2 | h2
                · rw [h2, he] at hk
                  exact Or.inl (Or.inr (by injection hk with hk2; exact hk2.symm))
                · exact Or.inr ⟨e2, h2, hk⟩
        · have hstep : reconcileStep db_keys st0 e =
              .ok { st0 with request_keys := pysetAdd st0.request_keys m.key } := by
            simp [reconcileStep, he, hfq, hdb]
          obtain ⟨st, hfold, hkeys, hreq⟩ :=
            ih { st0 with request_keys := pysetAdd st0.request_keys m.key }
              (fun e2 he2 i2 hi2 => hfound e2 (List.mem_cons_of_mem e he2) i2 hi2)
          refine ⟨st, ?_, hkeys, ?_⟩
          · rw [List.foldlM_cons, hstep]
            simpa using hfold
          · intro k
            rw [hreq k]
            show k ∈ pysetAdd st0.request_keys m.key ∨ _ ↔ _
            rw [mem_pysetAdd, hmkey]
            constructor
            · rintro ((h | h) | ⟨e2, he2, hk⟩)
              · exact Or.inl h
              · exact Or.inr ⟨e, List.mem_cons_self e t, by rw [he, h]⟩
              · exact Or.inr ⟨e2, List.mem_cons_of_mem e he2, hk⟩
            · rintro (h | ⟨e2, he2, hk⟩)
              · exact Or.inl (Or.inl h)
              · rcases List.mem_cons.mp he2 with h2 | h2
                · rw [h2, he] at hk
                  exact Or.inl (Or.inr (by injection hk with hk2; exact hk2.symm))
                · exact Or.inr ⟨e2, h2, hk⟩

/-- C5: on a related-collection incoming pass whose current members carry
pairwise distinct keys and whose incoming `'_id'` values all match current
members, the pass succeeds and the set of members removed is exactly the
current members whose keys are not among the kept keys recorded from the
incoming entries; when the manager has a `remove` operation only the
association is removed (nothing is deleted outright), otherwise the removed
members are deleted outright (nothing goes through `manager.remove`). -/
theorem relatedManager_remove_policy (manager : Manager) (entries : List WireEntry)
    (hnodup : (manager.members.map DBModel.key).Nodup)
    (hfound : ∀ e ∈ entries, ∀ i, e.wid = some i →
      ∃ m ∈ manager.members, m.key = i) :
    ∃ eff, RelatedManagerField.handle_incoming manager entries = .ok eff ∧
      (∀ m, m ∈ eff.removed_via_manager ++ eff.deleted ↔
        (m ∈ manager.members ∧ m.key ∉ keptKeys entries)) ∧
      (manager.has_remove = true → eff.deleted = []) ∧
      (manager.has_remove = false → eff.removed_via_manager = []) := by
  obtain ⟨st, hfold, hkeys, hreq⟩ :=
    reconcile_fold_ok (manager.members.foldl (fun s m => pysetAdd s m.key) [])
      entries { request_keys := [], new_models := [], members := manager.members }
      (fun e he i hi => by
        obtain ⟨m, hm, hk⟩ := hfound e he i hi
        show i ∈ manager.members.map DBModel.key
        rw [← hk]
        exact List.mem_map_of_mem DBModel.key hm)
  have hreq2 : ∀ k, k ∈ st.request_keys ↔ k ∈ keptKeys entries := by
    intro k
    rw [hreq k]
    unfold keptKeys
    rw [mem_keptKeys_aux entries [] k]
  have hmtr : ∀ m,
      m ∈ ((manager.members.foldl (fun s m => pysetAdd s m.key) []).filter
            (fun k => k ∉ st.request_keys)).filterMap
          (fun k => dget (manager.members.foldl (fun d m => dset d m.key m) []) k) ↔
        (m ∈ manager.members ∧ m.key ∉ keptKeys entries) := by
    intro m
    constructor
    · intro hm
      obtain ⟨k, hk, hdg⟩ := List.mem_filterMap.mp hm
      obtain ⟨hkdb, hknr⟩ := List.mem_filter.mp hk
      have hknr2 : k ∉ st.request_keys := by simpa using hknr
      rcases dget_fold_dset_some manager.members k m [] hdg with ⟨hmm, hmk⟩ | habs
      · refine ⟨hmm, ?_⟩
        intro hkk
        apply hknr2
        rw [hreq2 k, ← hmk]
        exact hkk
      · simp [dget] at habs
    · rintro ⟨hmm, hmk⟩
      apply List.mem_filterMap.mpr
      refine ⟨m.key, ?_, dget_fold_dset_mem manager.members m [] hnodup hmm⟩
      apply List.mem_filter.mpr
      refine ⟨?_, ?_⟩
      · rw [mem_db_keys manager.members m.key []]
        exact Or.inr ⟨m, hmm, rfl⟩
      · simp only [decide_eq_true_eq]
        intro hin
        exact hmk ((hreq2 m.key).mp hin)
  by_cases hrem : manager.has_remove
  · refine ⟨{ added := st.new_models,
              removed_via_manager :=
                ((manager.members.foldl (fun s m => pysetAdd s m.key) []).filter
                  (fun k => k ∉ st.request_keys)).filterMap
                  (fun k => dget (manager.members.foldl
                    (fun d m => dset d m.key m) []) k),
              deleted := [] }, ?_, ?_, fun _ => rfl, fun hf => absurd hrem (by simp [hf])⟩
    · simp [RelatedManagerField.handle_incoming, hfold, hrem]
    · intro m
      rw [List.append_nil]
      exact hmtr m
  · refine ⟨{ added := st.new_models,
              removed_via_manager := [],
              deleted :=
                ((manager.members.foldl (fun s m => pysetAdd s m.key) []).filter
                  (fun k => k ∉ st.request_keys)).filterMap
                  (fun k => dget (manager.members.foldl
                    (fun d m => dset d m.key m) []) k) },
            ?_, ?_, fun ht => absurd ht hrem, fun _ => rfl⟩
    · simp [RelatedManagerField.handle_incoming, hfold, hrem]
    · intro m
      rw [List.nil_append]
      exact hmtr m

/-- C5 witness: two current members keyed `"1"`, `"2"`; incoming keeps
`"1"` and creates one new member; the theorem applies and characterizes the
removal of member `"2"`. -/
theorem relatedManager_remove_policy_witness :
    ((Manager.mk [DBModel.mk "1" 0, DBModel.mk "2" 0] true).members.map
        DBModel.key).Nodup ∧
    (∀ e ∈ [WireEntry.mk (some "1") 5, WireEntry.mk none 9], ∀ i,
      e.wid = some i →
      ∃ m ∈ (Manager.mk [DBModel.mk "1" 0, DBModel.mk "2" 0] true).members,
        m.key = i) ∧
    (∃ eff,
      RelatedManagerField.handle_incoming
          (Manager.mk [DBModel.mk "1" 0, DBModel.mk "2" 0] true)
          [WireEntry.mk (some "1") 5, WireEntry.mk none 9] = .ok eff ∧
      (∀ m, m ∈ eff.removed_via_manager ++ eff.deleted ↔
        (m ∈ (Manager.mk [DBModel.mk "1" 0, DBModel.mk "2" 0] true).members ∧
         m.key ∉ keptKeys [WireEntry.mk (some "1") 5, WireEntry.mk none 9])) ∧
      ((Manager.mk [DBModel.mk "1" 0, DBModel.mk "2" 0] true).has_remove = true →
        eff.deleted = []) ∧
      ((Manager.mk [DBModel.mk "1" 0, DBModel.mk "2" 0] true).has_remove = false →
        eff.removed_via_manager = [])) := by
  have hf : ∀ e ∈ [WireEntry.mk (some "1") 5, WireEntry.mk none 9], ∀ i,
      e.wid = some i →
      ∃ m ∈ (Manager.mk [DBModel.mk "1" 0, DBModel.mk "2" 0] true).members,
        m.key = i := by
    intro e he i hi
    rcases List.mem_cons.mp he with h | h
    · rw [h] at hi
      injection hi with h2
      exact ⟨DBModel.mk "1" 0, by simp, h2⟩
    · rcases List.mem_cons.mp h with h2 | h2
      · rw [h2] at hi
        exact absurd hi (by simp)
      · exact absurd h2 (List.not_mem_nil e)
  exact ⟨by decide, hf, relatedManager_remove_policy _ _ (by decide) hf⟩

/-! ## C9 — derived resource path of a `ModelResource` -/

/-- C9: a `ModelResource` with no explicitly assigned path but a non-null
`parent_resource_path` derives its `resource_path` as
`parent_resource_path + '/' + str(key)`, so it is addressable (its path is
not `None`) without ever having been visited by the resolver. -/
theorem modelResource_derived_path (r : ModelResource) (pp k : String)
    (hunset : r.assigned_path = none)
    (hparent : r.parent_resource_path = some pp)
    (hkey : r.key = .ok k) :
    r.resource_path = .ok (some (pp ++ "/" ++ k)) ∧
    r.resource_path ≠ .ok none := by
  have h : r.resource_path = .ok (some (pp ++ "/" ++ k)) := by
    simp [ModelResource.resource_path, hunset, hparent, hkey]
  exact ⟨h, by simp [h]⟩

/-- C9 witness: parent path `"users"`, published key attribute `"pk"` with
value `"7"` on the wrapped model: the derived path is `"users/7"`. -/
theorem modelResource_derived_path_witness :
    (ModelResource.mk none (some "users") "pk" [("pk", "7")]).assigned_path =
      none ∧
    (ModelResource.mk none (some "users") "pk" [("pk", "7")]).parent_resource_path =
      some "users" ∧
    (ModelResource.mk none (some "users") "pk" [("pk", "7")]).key = .ok "7" ∧
    ((ModelResource.mk none (some "users") "pk" [("pk", "7")]).resource_path =
      .ok (some ("users" ++ "/" ++ "7")) ∧
     (ModelResource.mk none (some "users") "pk" [("pk", "7")]).resource_path ≠
      .ok none) :=
  ⟨rfl, rfl, rfl, modelResource_derived_path _ "users" "7" rfl rfl rfl⟩

/-! ## C10 — registration at the API root -/

/-- C10: registering a resource whose `resource_path` contains the
separator fails with `ValueError` — the check precedes the store, so the
child mapping is untouched — while registering one with a single-segment
path stores it under that segment in the returned root resource. -/
theorem apiResource_register (api : APIResource) (r : RegisteredResource) :
    ('/' ∈ r.resource_path →
      api.register r = .error .valueError) ∧
    ('/' ∉ r.resource_path →
      api.register r =
        .ok { api with
              child_resources := dset api.child_resources r.resource_path r } ∧
      dget (dset api.child_resources r.resource_path r) r.resource_path =
        some r) := by
  constructor
  · intro h
    simp [APIResource.register, h]
  · intro h
    exact ⟨by simp [APIResource.register, h], dget_dset_same _ _ _⟩

/-- C10 witness: registering path `"a/b"` fails, registering `"w"` stores
the resource under `"w"`. -/
theorem apiResource_register_witness :
    '/' ∈ (RegisteredResource.mk ['a', '/', 'b']).resource_path ∧
    (APIResource.mk [] []).register (RegisteredResource.mk ['a', '/', 'b']) =
      .error .valueError ∧
    '/' ∉ (RegisteredResource.mk ['w']).resource_path ∧
    ((APIResource.mk [] []).register (RegisteredResource.mk ['w']) =
      .ok { APIResource.mk [] [] with
            child_resources :=
              dset ([] : List (Str × RegisteredResource)) ['w']
                (RegisteredResource.mk ['w']) } ∧
     dget (dset ([] : List (Str × RegisteredResource)) ['w']
        (RegisteredResource.mk ['w'])) ['w'] = some (RegisteredResource.mk ['w'])) := by
  refine ⟨by decide, ?_, by decide, ?_⟩
  · exact (apiResource_register (APIResource.mk [] [])
      (RegisteredResource.mk ['a', '/', 'b'])).1 (by decide)
  · exact (apiResource_register (APIResource.mk [] [])
      (RegisteredResource.mk ['w'])).2 (by decide)
